import Mathlib

/-!
Formal model of the TextFileSorter core (src/main.cpp): the line validator,
the three string comparers, the index-based in-place merge sort, and the two
ingestion strategies.  C++ `std::string` values are modelled as lists of
characters, `std::vector<string>` as a list of such lists, and the `int`
indices of the sort as `Int`.
-/

namespace TextFileSorter

/-- A C++ `std::string`: a finite sequence of characters. -/
abbrev Str := List Char

/-! ### Character classification (`<cctype>`, "C" locale) -/

/-- `std::isdigit` in the "C" locale: true exactly on `'0'..'9'`. -/
def isdigitC (c : Char) : Bool := decide ('0' ≤ c ∧ c ≤ '9')

/-- `std::isalnum` in the "C" locale: digits and the two ASCII letter ranges. -/
def isalnumC (c : Char) : Bool :=
  isdigitC c || decide ('A' ≤ c ∧ c ≤ 'Z') || decide ('a' ≤ c ∧ c ≤ 'z')

/-- `ContainsSpecial` (main.cpp:159-167): scans the string and reports true at
the first character that is a digit or is not alphanumeric. -/
def ContainsSpecial (s : Str) : Bool :=
  s.any fun ch => isdigitC ch || !isalnumC ch

/-- The acceptance test the `ReadFile` loop applies to each line it read
(main.cpp:186-198): a line is kept exactly when it is non-empty and
`ContainsSpecial` is false for it. -/
def IsValid (line : Str) : Bool := !line.isEmpty && !ContainsSpecial line

/-- The line-processing loop of `ReadFile` (main.cpp:185-199): empty lines are
skipped, lines with special characters are reported and dropped, all other
lines are appended to `listOut` in order. -/
def readFileLines : List Str → List Str
  | [] => []
  | line :: rest =>
    if line.isEmpty then readFileLines rest
    else if ContainsSpecial line then readFileLines rest
    else line :: readFileLines rest

/-! ### The three comparers -/

/-- `AlphAscStrComp::IsFirstAboveSecond` (main.cpp:208-218).  The loop walks
both strings while index `i` is below both lengths; the fallback case is the
loop exit `return firstString.length() < secondString.length()` — since the
loop consumed an equal-length common prefix of both strings, comparing the
remaining suffix lengths equals comparing the original lengths. -/
def AlphAscStrComp.IsFirstAboveSecond : Str → Str → Bool
  | c1 :: r1, c2 :: r2 =>
    if c1 < c2 then true
    else if c2 < c1 then false
    else AlphAscStrComp.IsFirstAboveSecond r1 r2
  | r1, r2 => decide (r1.length < r2.length)

/-- `AlphDescStrComp::IsFirstAboveSecond` (main.cpp:221-231): the mirror of
the ascending comparer; the loop exit is
`return secondString.length() < firstString.length()`. -/
def AlphDescStrComp.IsFirstAboveSecond : Str → Str → Bool
  | c1 :: r1, c2 :: r2 =>
    if c2 < c1 then true
    else if c1 < c2 then false
    else AlphDescStrComp.IsFirstAboveSecond r1 r2
  | r1, r2 => decide (r2.length < r1.length)

/-- The reverse lock-step walk of `LastLetterAscStrComp::IsFirstAboveSecond`
(main.cpp:237-246), expressed on the already-reversed character lists: the
C++ `rbegin()/rend()` iteration over a string is exactly a head-first walk of
its reversal.  If the first cursor is exhausted the result is true, if only
the second is exhausted it is false, and at the first differing character the
smaller one decides. -/
def revWalk : List Char → List Char → Bool
  | [], _ => true
  | _ :: _, [] => false
  | c1 :: r1, c2 :: r2 => if c1 ≠ c2 then decide (c1 < c2) else revWalk r1 r2

/-- `LastLetterAscStrComp::IsFirstAboveSecond` (main.cpp:234-247): the reverse
lock-step walk over both strings. -/
def LastLetterAscStrComp.IsFirstAboveSecond (firstString secondString : Str) : Bool :=
  revWalk firstString.reverse secondString.reverse

/-! ### Sort-type dispatch -/

/-- `enum class ESortType { AlphAsc, AlphDesc, LastLetterAsc }` (main.cpp:24),
modelled by the enum's underlying integer values (0, 1, 2) so that
out-of-range selector values — reachable in C++ by casting an integer to the
enum class — can reach the `default` branch of the dispatch switch. -/
def ESortType.AlphAsc : Int := 0

/-- Underlying value of `ESortType::AlphDesc`. -/
def ESortType.AlphDesc : Int := 1

/-- Underlying value of `ESortType::LastLetterAsc`. -/
def ESortType.LastLetterAsc : Int := 2

/-- The comparer-selection switch of `MergeSortWrapper` (main.cpp:320-334):
each recognised variant selects its comparer; the `default` branch prints a
diagnostic and falls back to `AlphAscStrComp`. -/
def comparerFor (sortType : Int) : Str → Str → Bool :=
  if sortType = ESortType.AlphAsc then AlphAscStrComp.IsFirstAboveSecond
  else if sortType = ESortType.AlphDesc then AlphDescStrComp.IsFirstAboveSecond
  else if sortType = ESortType.LastLetterAsc then LastLetterAscStrComp.IsFirstAboveSecond
  else AlphAscStrComp.IsFirstAboveSecond

/-! ### The merge sort -/

/-- The merging loops of `merge` (main.cpp:275-298) on the two copied
sub-arrays: while both are non-empty, emit the upper head when
`IsFirstAboveSecond(upArray[i], lowArray[j])` holds and the lower head
otherwise; when one side is exhausted, append the remainder of the other. -/
def mergeRun (comp : Str → Str → Bool) : List Str → List Str → List Str
  | [], lowArray => lowArray
  | upArray, [] => upArray
  | up :: ups, low :: lows =>
    if comp up low then up :: mergeRun comp ups (low :: lows)
    else low :: mergeRun comp (up :: ups) lows

/-- `merge(originVec, upper, mid, lower, comparer)` (main.cpp:251-299) as a
function returning the updated vector.  `upArray` and `lowArray` are copies
of `originVec[upper..mid]` and `originVec[mid+1..lower]` of the computed
sizes `mid - upper + 1` and `lower - mid`, and the write-back loop with
`k = upper, ..` overwrites exactly the positions `upper..lower` with their
merge (for in-range indices; out-of-range accesses are undefined behaviour in
the C++, which this total model need not match). -/
def merge (originVec : List Str) (upper mid lower : Int)
    (comp : Str → Str → Bool) : List Str :=
  let upperSize := mid - upper + 1
  let lowerSize := lower - mid
  let upArray := (originVec.drop upper.toNat).take upperSize.toNat
  let lowArray := (originVec.drop (mid + 1).toNat).take lowerSize.toNat
  originVec.take upper.toNat ++ mergeRun comp upArray lowArray
    ++ originVec.drop (lower + 1).toNat

/-- `MergeSort(originVec, upper, lower, comparer)` (main.cpp:301-315): when
`upper < lower`, split at `mid = upper + (lower - upper) / 2`, sort both
halves recursively, and merge.  The division is only reached with
`lower - upper > 0`, where Lean's integer division agrees with the C++
truncating division. -/
def MergeSort (originVec : List Str) (upper lower : Int)
    (comp : Str → Str → Bool) : List Str :=
  if upper < lower then
    let mid := upper + (lower - upper) / 2
    let afterUpper := MergeSort originVec upper mid comp
    let afterLower := MergeSort afterUpper (mid + 1) lower comp
    merge afterLower upper mid lower comp
  else originVec
termination_by (lower - upper).toNat
decreasing_by
  · omega
  · omega

/-- `MergeSortWrapper(listToSort, sortType)` (main.cpp:317-342): select the
comparer and sort the whole vector, passing `0` and `listToSort.size() - 1`.
For the empty list the C++ expression `size() - 1` wraps around as `size_t`
and converts to the `int` value `-1` on the usual two's-complement platforms,
so the recursion guard `upper < lower` fails and the list is returned
unchanged; the `Int` model computes the same value `-1` directly. -/
def MergeSortWrapper (listToSort : List Str) (sortType : Int) : List Str :=
  MergeSort listToSort 0 ((listToSort.length : Int) - 1) (comparerFor sortType)

/-! ### Ingestion strategies

Only the pure data flow of the two orchestrators is modelled: each per-source
load is the same deterministic `readFile` function (file contents do not
change between the runs), and the console and clock side effects are
dropped. -/

/-- The accumulation-and-sort phase of `singleThreading` (main.cpp:86-103):
for each file in list order, append `ReadFile`'s lines to `finalList`, then
sort with the chosen policy. -/
def singleThreadingFinalList {σ : Type} (readFile : σ → List Str)
    (fileList : List σ) (sortType : Int) : List Str :=
  MergeSortWrapper
    (fileList.foldl (fun finalList file => finalList ++ readFile file) []) sortType

/-- The accumulation-and-sort phase of `multiThreading` (main.cpp:107-153):
task `i` computes `ReadFile(fileList[i])` into `futures[i]` (each task owns
its own result slot and done flag; the busy-poll barrier only delays the
collection until every task finished and does not affect the values); the
results are then collected in index order and sorted. -/
def multiThreadingFinalList {σ : Type} (readFile : σ → List Str)
    (fileList : List σ) (sortType : Int) : List Str :=
  let futures := fileList.map readFile
  MergeSortWrapper
    (futures.foldl (fun finalList result => finalList ++ result) []) sortType

/-! ### Functional form of the segment sort

`msortSeg` is the sorting that `MergeSort` performs on the segment
`originVec[upper..lower]`, expressed as a pure function of that segment: the
C++ midpoint `upper + (lower - upper) / 2` splits a segment of length `s`
into its first `(s + 1) / 2` elements and the rest.  The bridge theorem
`MergeSort_eq_msortSeg` below proves the correspondence. -/

/-- Pure merge sort of one segment, splitting as the C++ midpoint does. -/
def msortSeg (comp : Str → Str → Bool) (seg : List Str) : List Str :=
  if seg.length ≤ 1 then seg
  else
    mergeRun comp (msortSeg comp (seg.take ((seg.length + 1) / 2)))
      (msortSeg comp (seg.drop ((seg.length + 1) / 2)))
termination_by seg.length
decreasing_by
  · simp only [List.length_take]
    omega
  · simp only [List.length_drop]
    omega

/-! ### Order-theoretic characterisation of the comparers -/

/-- The ascending comparer decides the strict lexicographic order. -/
theorem alphAsc_iff_lex : ∀ a b : Str,
    AlphAscStrComp.IsFirstAboveSecond a b = true ↔ List.Lex (· < ·) a b := by
  intro a
  induction a with
  | nil =>
    intro b
    cases b with
    | nil => simp [AlphAscStrComp.IsFirstAboveSecond]
    | cons c2 r2 =>
      simp only [AlphAscStrComp.IsFirstAboveSecond, List.length_nil, List.length_cons,
        decide_eq_true_eq]
      exact ⟨fun _ => List.Lex.nil, fun _ => Nat.succ_pos _⟩
  | cons c1 r1 ih =>
    intro b
    cases b with
    | nil => simp [AlphAscStrComp.IsFirstAboveSecond]
    | cons c2 r2 =>
      rw [AlphAscStrComp.IsFirstAboveSecond]
      by_cases h : c1 < c2
      · simp only [if_pos h, true_iff]
        exact List.Lex.rel h
      · by_cases h2 : c2 < c1
        · simp only [if_neg h, if_pos h2, Bool.false_eq_true, false_iff]
          intro hlex
          cases hlex with
          | cons h' => exact lt_irrefl _ h2
          | rel h' => exact h h'
        · have hc : c1 = c2 := le_antisymm (not_lt.1 h2) (not_lt.1 h)
          subst hc
          simp only [if_neg h, if_neg h2]
          rw [ih r2]
          exact (List.Lex.cons_iff).symm

/-- The descending comparer is the ascending comparer with its arguments
swapped. -/
theorem alphDesc_eq_alphAsc_swap : ∀ a b : Str,
    AlphDescStrComp.IsFirstAboveSecond a b = AlphAscStrComp.IsFirstAboveSecond b a := by
  intro a
  induction a with
  | nil =>
    intro b
    cases b with
    | nil => rfl
    | cons c2 r2 => rfl
  | cons c1 r1 ih =>
    intro b
    cases b with
    | nil => rfl
    | cons c2 r2 =>
      rw [AlphDescStrComp.IsFirstAboveSecond, AlphAscStrComp.IsFirstAboveSecond, ih r2]

/-- The reverse walk decides "lexicographically below or equal". -/
theorem revWalk_iff : ∀ a b : List Char,
    revWalk a b = true ↔ (List.Lex (· < ·) a b ∨ a = b) := by
  intro a
  induction a with
  | nil =>
    intro b
    cases b with
    | nil => simp [revWalk]
    | cons c2 r2 => simp only [revWalk, true_iff]; exact Or.inl List.Lex.nil
  | cons c1 r1 ih =>
    intro b
    cases b with
    | nil => simp [revWalk]
    | cons c2 r2 =>
      rw [revWalk]
      by_cases h : c1 = c2
      · subst h
        simp only [ne_eq, not_true_eq_false, if_neg, ite_false, ih r2]
        constructor
        · rintro (hlex | rfl)
          · exact Or.inl (List.Lex.cons hlex)
          · exact Or.inr rfl
        · rintro (hlex | heq)
          · exact Or.inl (List.Lex.cons_iff.1 hlex)
          · exact Or.inr (by injection heq)
      · simp only [ne_eq, h, not_false_eq_true, if_pos, ite_true, decide_eq_true_eq]
        constructor
        · intro hlt
          exact Or.inl (List.Lex.rel hlt)
        · rintro (hlex | heq)
          · cases hlex with
            | cons h' => exact absurd rfl h
            | rel h' => exact h'
          · injection heq with h1 _
            exact absurd h1 h

/-- Bool-level negation of the ascending comparer. -/
theorem alphAsc_eq_false_iff (a b : Str) :
    AlphAscStrComp.IsFirstAboveSecond a b = false ↔ ¬List.Lex (· < ·) a b := by
  rw [← alphAsc_iff_lex]
  cases AlphAscStrComp.IsFirstAboveSecond a b <;> simp

/-- Trichotomy of the lexicographic order on character lists. -/
theorem lexTrichotomy (a b : Str) :
    List.Lex (· < ·) a b ∨ a = b ∨ List.Lex (· < ·) b a :=
  trichotomous_of (List.Lex (· < ·)) a b

/-- The ascending comparer is irreflexive. -/
theorem alphAsc_irrefl (a : Str) : AlphAscStrComp.IsFirstAboveSecond a a = false :=
  (alphAsc_eq_false_iff a a).2 (irrefl_of (List.Lex (· < ·)) a)

/-- The ascending comparer is asymmetric. -/
theorem alphAsc_asymm (a b : Str) (h : AlphAscStrComp.IsFirstAboveSecond a b = true) :
    AlphAscStrComp.IsFirstAboveSecond b a = false :=
  (alphAsc_eq_false_iff b a).2 (asymm_of (List.Lex (· < ·)) ((alphAsc_iff_lex a b).1 h))

/-- The ascending comparer is transitive. -/
theorem alphAsc_trans (a b c : Str) (h1 : AlphAscStrComp.IsFirstAboveSecond a b = true)
    (h2 : AlphAscStrComp.IsFirstAboveSecond b c = true) :
    AlphAscStrComp.IsFirstAboveSecond a c = true :=
  (alphAsc_iff_lex a c).2
    (trans_of (List.Lex (· < ·)) ((alphAsc_iff_lex a b).1 h1) ((alphAsc_iff_lex b c).1 h2))

/-- Two strings neither of which sorts before the other are equal. -/
theorem alphAsc_conn (a b : Str) (h1 : AlphAscStrComp.IsFirstAboveSecond a b = false)
    (h2 : AlphAscStrComp.IsFirstAboveSecond b a = false) : a = b := by
  rcases lexTrichotomy a b with h | h | h
  · exact absurd h ((alphAsc_eq_false_iff a b).1 h1)
  · exact h
  · exact absurd h ((alphAsc_eq_false_iff b a).1 h2)

/-- The non-strict order induced by the ascending comparer is transitive. -/
theorem alphAsc_not_trans (a b c : Str) (h1 : AlphAscStrComp.IsFirstAboveSecond b a = false)
    (h2 : AlphAscStrComp.IsFirstAboveSecond c b = false) :
    AlphAscStrComp.IsFirstAboveSecond c a = false := by
  by_contra hc
  rw [Bool.not_eq_false] at hc
  rcases lexTrichotomy a b with h | h | h
  · exact ((alphAsc_eq_false_iff c b).1 h2)
      (trans_of (List.Lex (· < ·)) ((alphAsc_iff_lex c a).1 hc) h)
  · subst h
    exact ((alphAsc_eq_false_iff c a).1 h2) ((alphAsc_iff_lex c a).1 hc)
  · exact ((alphAsc_eq_false_iff b a).1 h1) h

/-- The last-letter comparer, characterised on reversed strings. -/
theorem lastLetter_iff (a b : Str) :
    LastLetterAscStrComp.IsFirstAboveSecond a b = true ↔
      (List.Lex (· < ·) a.reverse b.reverse ∨ a.reverse = b.reverse) :=
  revWalk_iff a.reverse b.reverse

/-- The last-letter comparer is reflexive: it reports true on equal strings. -/
theorem lastLetter_refl (a : Str) : LastLetterAscStrComp.IsFirstAboveSecond a a = true :=
  (lastLetter_iff a a).2 (Or.inr rfl)

/-- The last-letter comparer is total. -/
theorem lastLetter_total (a b : Str)
    (h : LastLetterAscStrComp.IsFirstAboveSecond a b = false) :
    LastLetterAscStrComp.IsFirstAboveSecond b a = true := by
  rcases lexTrichotomy a.reverse b.reverse with h' | h' | h'
  · have := (lastLetter_iff a b).2 (Or.inl h')
    rw [h] at this
    exact absurd this (by simp)
  · exact (lastLetter_iff b a).2 (Or.inr h'.symm)
  · exact (lastLetter_iff b a).2 (Or.inl h')

/-- The last-letter comparer is transitive. -/
theorem lastLetter_trans (a b c : Str)
    (h1 : LastLetterAscStrComp.IsFirstAboveSecond a b = true)
    (h2 : LastLetterAscStrComp.IsFirstAboveSecond b c = true) :
    LastLetterAscStrComp.IsFirstAboveSecond a c = true := by
  rcases (lastLetter_iff a b).1 h1 with hab | hab
  · rcases (lastLetter_iff b c).1 h2 with hbc | hbc
    · exact (lastLetter_iff a c).2 (Or.inl (trans_of (List.Lex (· < ·)) hab hbc))
    · exact (lastLetter_iff a c).2 (Or.inl (hbc ▸ hab))
  · rcases (lastLetter_iff b c).1 h2 with hbc | hbc
    · exact (lastLetter_iff a c).2 (Or.inl (hab ▸ hbc))
    · exact (lastLetter_iff a c).2 (Or.inr (hab.trans hbc))

/-- Mutual last-letter precedence forces equality. -/
theorem lastLetter_antisymm (a b : Str)
    (h1 : LastLetterAscStrComp.IsFirstAboveSecond a b = true)
    (h2 : LastLetterAscStrComp.IsFirstAboveSecond b a = true) : a = b := by
  have hrev : a.reverse = b.reverse := by
    rcases (lastLetter_iff a b).1 h1 with hab | hab
    · rcases (lastLetter_iff b a).1 h2 with hba | hba
      · exact absurd hab (asymm_of (List.Lex (· < ·)) hba)
      · exact hba.symm
    · exact hab
  exact List.reverse_injective hrev

/-- A non-empty extension sorts strictly after its stem under the ascending
comparer. -/
theorem alphAsc_append_ne (a c : Str) (hc : c ≠ []) :
    AlphAscStrComp.IsFirstAboveSecond a (a ++ c) = true := by
  induction a with
  | nil =>
    cases c with
    | nil => exact absurd rfl hc
    | cons x xs => simp [AlphAscStrComp.IsFirstAboveSecond]
  | cons x xs ih =>
    rw [List.cons_append, AlphAscStrComp.IsFirstAboveSecond, if_neg (lt_irrefl x),
      if_neg (lt_irrefl x)]
    exact ih

/-- Claim C2, counterexample: the last-letter comparer is not irreflexive —
on equal strings the reverse walk exhausts the first cursor and reports
true. -/
theorem claim_C2_counterexample :
    LastLetterAscStrComp.IsFirstAboveSecond ("cat".toList) ("cat".toList) = true := by
  decide

/-- Claim C2, amended: `AlphAscStrComp` and `AlphDescStrComp` are strict weak
orderings (irreflexive, antisymmetric, transitive), but
`LastLetterAscStrComp.IsFirstAboveSecond` is reflexive — it returns true on
every pair of equal strings — so it is a total, transitive, non-strict
comparison rather than a strict weak ordering. -/
theorem claim_C2_amended :
    (∀ a : Str, AlphAscStrComp.IsFirstAboveSecond a a = false) ∧
    (∀ a b : Str, AlphAscStrComp.IsFirstAboveSecond a b = true →
      AlphAscStrComp.IsFirstAboveSecond b a = false) ∧
    (∀ a b c : Str, AlphAscStrComp.IsFirstAboveSecond a b = true →
      AlphAscStrComp.IsFirstAboveSecond b c = true →
      AlphAscStrComp.IsFirstAboveSecond a c = true) ∧
    (∀ a : Str, AlphDescStrComp.IsFirstAboveSecond a a = false) ∧
    (∀ a b : Str, AlphDescStrComp.IsFirstAboveSecond a b = true →
      AlphDescStrComp.IsFirstAboveSecond b a = false) ∧
    (∀ a b c : Str, AlphDescStrComp.IsFirstAboveSecond a b = true →
      AlphDescStrComp.IsFirstAboveSecond b c = true →
      AlphDescStrComp.IsFirstAboveSecond a c = true) ∧
    (∀ a b c : Str, LastLetterAscStrComp.IsFirstAboveSecond a b = true →
      LastLetterAscStrComp.IsFirstAboveSecond b c = true →
      LastLetterAscStrComp.IsFirstAboveSecond a c = true) ∧
    (∀ a : Str, LastLetterAscStrComp.IsFirstAboveSecond a a = true) := by
  refine ⟨alphAsc_irrefl, alphAsc_asymm, alphAsc_trans, ?_, ?_, ?_,
    lastLetter_trans, lastLetter_refl⟩
  · intro a
    rw [alphDesc_eq_alphAsc_swap]
    exact alphAsc_irrefl a
  · intro a b h
    rw [alphDesc_eq_alphAsc_swap] at h ⊢
    exact alphAsc_asymm b a h
  · intro a b c h1 h2
    rw [alphDesc_eq_alphAsc_swap] at h1 h2 ⊢
    exact alphAsc_trans c b a h2 h1

/-- Claim C6: the descending comparer is the exact reverse relation of the
ascending one, and on a strict-prefix pair the longer string precedes under
descending while the shorter precedes under ascending. -/
theorem claim_C6 :
    (∀ a b : Str, AlphDescStrComp.IsFirstAboveSecond a b =
      AlphAscStrComp.IsFirstAboveSecond b a) ∧
    (∀ a c : Str, c ≠ [] →
      AlphDescStrComp.IsFirstAboveSecond (a ++ c) a = true ∧
      AlphAscStrComp.IsFirstAboveSecond a (a ++ c) = true) := by
  refine ⟨alphDesc_eq_alphAsc_swap, fun a c hc => ⟨?_, alphAsc_append_ne a c hc⟩⟩
  rw [alphDesc_eq_alphAsc_swap]
  exact alphAsc_append_ne a c hc

/-- Witness for claim C6 at the concrete strict-prefix pair ("ab", "abc"). -/
theorem claim_C6_witness :
    AlphDescStrComp.IsFirstAboveSecond ("abc".toList) ("ab".toList) = true ∧
    AlphAscStrComp.IsFirstAboveSecond ("ab".toList) ("abc".toList) = true := by
  have h := claim_C6.2 ("ab".toList) ("c".toList) (by decide)
  have e : ("ab".toList) ++ ("c".toList) = ("abc".toList) := by decide
  rw [e] at h
  exact h

/-! ### The line validator -/

/-- A character passes the validator's per-character test exactly when it is
an ASCII letter. -/
theorem charAccept (c : Char) :
    (isdigitC c = false ∧ isalnumC c = true) ↔
      (('A' ≤ c ∧ c ≤ 'Z') ∨ ('a' ≤ c ∧ c ≤ 'z')) := by
  unfold isalnumC isdigitC
  simp only [Bool.or_eq_true, decide_eq_true_eq, decide_eq_false_iff_not]
  constructor
  · rintro ⟨hnd, (hd | hu) | hl⟩
    · exact absurd hd hnd
    · exact Or.inl hu
    · exact Or.inr hl
  · rintro (hu | hl)
    · refine ⟨fun hd => ?_, Or.inl (Or.inr hu)⟩
      exact absurd (le_trans hu.1 hd.2) (by decide)
    · refine ⟨fun hd => ?_, Or.inr hl⟩
      exact absurd (le_trans hl.1 hd.2) (by decide)

/-- The `ReadFile` loop keeps exactly the lines accepted by `IsValid`. -/
theorem readFileLines_eq_filter :
    ∀ lines : List Str, readFileLines lines = lines.filter IsValid := by
  intro lines
  induction lines with
  | nil => rfl
  | cons line rest ih =>
    rw [readFileLines, List.filter_cons]
    by_cases he : line.isEmpty
    · have hv : IsValid line = false := by simp [IsValid, he]
      rw [if_pos he, hv, ih]
      simp
    · by_cases hs : ContainsSpecial line
      · have hv : IsValid line = false := by simp [IsValid, hs]
        rw [if_neg he, if_pos hs, hv, ih]
        simp
      · have hv : IsValid line = true := by
          simp [IsValid]
          exact ⟨by simpa using he, by simpa using hs⟩
        rw [if_neg he, if_neg hs, hv, ih]
        simp

/-- Claim C4: the validator accepts a line iff it is non-empty and every
character is an ASCII letter; a line read by `ReadFile` is kept exactly when
it is non-empty and `ContainsSpecial` is false for it; and the four spec
examples evaluate as stated. -/
theorem claim_C4 :
    (∀ l : Str, IsValid l = true ↔
      l ≠ [] ∧ ∀ c ∈ l, ('A' ≤ c ∧ c ≤ 'Z') ∨ ('a' ≤ c ∧ c ≤ 'z')) ∧
    (∀ lines : List Str, readFileLines lines = lines.filter IsValid) ∧
    (∀ lines : List Str, ∀ l : Str,
      l ∈ readFileLines lines ↔ l ∈ lines ∧ IsValid l = true) ∧
    IsValid ("abc123".toList) = false ∧
    IsValid ("".toList) = false ∧
    IsValid ("hello world".toList) = false ∧
    IsValid ("Hello".toList) = true := by
  refine ⟨?_, readFileLines_eq_filter, ?_, by decide, by decide, by decide, by decide⟩
  · intro l
    unfold IsValid ContainsSpecial
    rw [Bool.and_eq_true, Bool.not_eq_true', Bool.not_eq_true', List.isEmpty_eq_false,
      List.any_eq_false]
    constructor
    · rintro ⟨hne, hall⟩
      refine ⟨hne, fun c hc => ?_⟩
      have h := hall c hc
      simp only [Bool.or_eq_true, Bool.not_eq_true', not_or, Bool.not_eq_true,
        Bool.not_eq_false] at h
      exact (charAccept c).1 h
    · rintro ⟨hne, hall⟩
      refine ⟨hne, fun c hc => ?_⟩
      have h := (charAccept c).2 (hall c hc)
      simp only [Bool.or_eq_true, Bool.not_eq_true', not_or, Bool.not_eq_true,
        Bool.not_eq_false]
      exact h
  · intro lines l
    rw [readFileLines_eq_filter]
    exact List.mem_filter

/-! ### Ingestion equivalence -/

/-- Claim C3: with every per-source load modelled as the same deterministic
`readFile` function, the sequential and the concurrent ingestion strategies
produce the same Sorted Output, as ordered sequences, for every source list
and every ordering-policy selector. -/
theorem claim_C3 {σ : Type} (readFile : σ → List Str) (fileList : List σ)
    (sortType : Int) :
    multiThreadingFinalList readFile fileList sortType =
      singleThreadingFinalList readFile fileList sortType := by
  unfold multiThreadingFinalList singleThreadingFinalList
  simp only [List.foldl_map]

/-! ### Empty input and unknown selector -/

/-- Claim C7: sorting the empty sequence returns the empty sequence for every
selector: the wrapper calls `MergeSort` with upper index `0` and lower index
`-1`, the guard `upper < lower` fails, and the list comes back unchanged. -/
theorem claim_C7 (sortType : Int) :
    MergeSortWrapper [] sortType = [] ∧
    (∀ comp : Str → Str → Bool, MergeSort [] 0 (-1) comp = []) := by
  constructor
  · rw [MergeSortWrapper, MergeSort]
    norm_num
  · intro comp
    rw [MergeSort]
    norm_num

/-- Claim C8: a selector that is none of the three recognised variants takes
the diagnostic `default` branch and the sort behaves exactly as
AlphabeticalAscending on every input list. -/
theorem claim_C8 (sortType : Int) (h0 : sortType ≠ ESortType.AlphAsc)
    (h1 : sortType ≠ ESortType.AlphDesc) (h2 : sortType ≠ ESortType.LastLetterAsc)
    (L : List Str) :
    MergeSortWrapper L sortType = MergeSortWrapper L ESortType.AlphAsc := by
  unfold MergeSortWrapper comparerFor
  rw [if_neg h0, if_neg h1, if_neg h2, if_pos rfl]

/-- Witness for claim C8 at the out-of-range selector 7. -/
theorem claim_C8_witness :
    MergeSortWrapper [("b".toList), ("a".toList)] 7 =
      MergeSortWrapper [("b".toList), ("a".toList)] ESortType.AlphAsc :=
  claim_C8 7 (by decide) (by decide) (by decide) [("b".toList), ("a".toList)]

/-! ### Merge-loop lemmas -/

/-- The merge loop emits a permutation of the two sub-arrays. -/
theorem mergeRun_perm (comp : Str → Str → Bool) :
    ∀ upArray lowArray : List Str,
      (mergeRun comp upArray lowArray).Perm (upArray ++ lowArray) := by
  intro upArray
  induction upArray with
  | nil =>
    intro lowArray
    simp [mergeRun]
  | cons up ups iha =>
    intro lowArray
    induction lowArray with
    | nil => simp [mergeRun]
    | cons low lows ihb =>
      rw [mergeRun]
      by_cases h : comp up low = true
      · rw [if_pos h]
        exact (iha (low :: lows)).cons up
      · rw [if_neg h]
        exact (ihb.cons low).trans List.perm_middle.symm

/-- The merge loop preserves the total number of elements. -/
theorem mergeRun_length (comp : Str → Str → Bool) (a b : List Str) :
    (mergeRun comp a b).length = a.length + b.length :=
  (mergeRun_perm comp a b).length_eq.trans (List.length_append a b)

/-- Merging two sorted runs yields a sorted run, for any transitive order
`le` that the comparer decides: a true comparison puts the upper head below,
a false one puts the lower head below. -/
theorem mergeRun_pairwise (comp : Str → Str → Bool) (le : Str → Str → Prop)
    (htrans : ∀ x y z, le x y → le y z → le x z)
    (h1 : ∀ u l : Str, comp u l = true → le u l)
    (h2 : ∀ u l : Str, comp u l = false → le l u) :
    ∀ a b : List Str, a.Pairwise le → b.Pairwise le →
      (mergeRun comp a b).Pairwise le := by
  intro a
  induction a with
  | nil =>
    intro b _ hb
    simpa [mergeRun] using hb
  | cons up ups iha =>
    intro b
    induction b with
    | nil =>
      intro ha _
      simpa [mergeRun] using ha
    | cons low lows ihb =>
      intro ha hb
      rw [mergeRun]
      rcases List.pairwise_cons.1 ha with ⟨haup, haups⟩
      rcases List.pairwise_cons.1 hb with ⟨hblow, hblows⟩
      by_cases h : comp up low = true
      · rw [if_pos h]
        refine List.pairwise_cons.2 ⟨?_, iha (low :: lows) haups hb⟩
        intro y hy
        rcases List.mem_append.1 ((mergeRun_perm comp ups (low :: lows)).mem_iff.1 hy)
          with hy' | hy'
        · exact haup y hy'
        · rcases List.mem_cons.1 hy' with heq | hy''
          · rw [heq]
            exact h1 up low h
          · exact htrans up low y (h1 up low h) (hblow y hy'')
      · rw [if_neg h]
        refine List.pairwise_cons.2 ⟨?_, ihb ha hblows⟩
        intro y hy
        rcases List.mem_append.1 ((mergeRun_perm comp (up :: ups) lows).mem_iff.1 hy)
          with hy' | hy'
        · rcases List.mem_cons.1 hy' with heq | hy''
          · rw [heq]
            exact h2 up low (Bool.eq_false_iff.2 h)
          · exact htrans low up y (h2 up low (Bool.eq_false_iff.2 h)) (haup y hy'')
        · exact hblow y hy'

/-! ### Segment-sort lemmas -/

/-- The segment sort is a permutation (auxiliary strong induction on the
length). -/
theorem msortSeg_perm_aux (comp : Str → Str → Bool) :
    ∀ (n : Nat) (seg : List Str), seg.length = n →
      (msortSeg comp seg).Perm seg := by
  intro n
  induction n using Nat.strong_induction_on with
  | _ n ih =>
    intro seg hn
    rw [msortSeg]
    by_cases hlen : seg.length ≤ 1
    · rw [if_pos hlen]
    · rw [if_neg hlen]
      refine (mergeRun_perm comp _ _).trans ?_
      refine ((ih _ ?_ _ rfl).append (ih _ ?_ _ rfl)).trans
        (by rw [List.take_append_drop])
      · rw [List.length_take]
        omega
      · rw [List.length_drop]
        omega

/-- The segment sort is a permutation. -/
theorem msortSeg_perm (comp : Str → Str → Bool) (seg : List Str) :
    (msortSeg comp seg).Perm seg :=
  msortSeg_perm_aux comp seg.length seg rfl

/-- The segment sort preserves length. -/
theorem msortSeg_length (comp : Str → Str → Bool) (seg : List Str) :
    (msortSeg comp seg).length = seg.length :=
  (msortSeg_perm comp seg).length_eq

/-- The segment sort outputs a `le`-sorted list, under the same comparer
hypotheses as the merge loop. -/
theorem msortSeg_pairwise (comp : Str → Str → Bool) (le : Str → Str → Prop)
    (htrans : ∀ x y z, le x y → le y z → le x z)
    (h1 : ∀ u l : Str, comp u l = true → le u l)
    (h2 : ∀ u l : Str, comp u l = false → le l u)
    (seg : List Str) : (msortSeg comp seg).Pairwise le := by
  suffices haux : ∀ (n : Nat) (s : List Str), s.length = n →
      (msortSeg comp s).Pairwise le from haux seg.length seg rfl
  intro n
  induction n using Nat.strong_induction_on with
  | _ n ih =>
    intro s hn
    rw [msortSeg]
    by_cases hlen : s.length ≤ 1
    · rw [if_pos hlen]
      cases s with
      | nil => exact List.Pairwise.nil
      | cons x xs =>
        cases xs with
        | nil => exact List.pairwise_singleton le x
        | cons y ys => simp at hlen
    · rw [if_neg hlen]
      refine mergeRun_pairwise comp le htrans h1 h2 _ _ (ih _ ?_ _ rfl) (ih _ ?_ _ rfl)
      · rw [List.length_take]
        omega
      · rw [List.length_drop]
        omega

/-! ### Evaluating one merge call on a decomposed vector -/

/-- `merge` on a vector decomposed as prefix ++ upper-segment ++
lower-segment ++ suffix keeps the prefix and suffix and replaces the two
segments by their merge. -/
theorem merge_eval (comp : Str → Str → Bool) (X S1 S2 D : List Str)
    (upper mid lower : Int) (h0 : 0 ≤ upper) (hum : upper ≤ mid) (hml : mid < lower)
    (hX : X.length = upper.toNat) (hS1 : S1.length = (mid - upper + 1).toNat)
    (hS2 : S2.length = (lower - mid).toNat) :
    merge (((X ++ S1) ++ S2) ++ D) upper mid lower comp =
      (X ++ mergeRun comp S1 S2) ++ D := by
  unfold merge
  dsimp only
  have hassoc : ((X ++ S1) ++ S2) ++ D = X ++ (S1 ++ (S2 ++ D)) := by
    simp [List.append_assoc]
  rw [hassoc]
  have h1 : (X ++ (S1 ++ (S2 ++ D))).take upper.toNat = X := List.take_left' hX
  have h2 : (X ++ (S1 ++ (S2 ++ D))).drop upper.toNat = S1 ++ (S2 ++ D) :=
    List.drop_left' hX
  have h4 : (S1 ++ (S2 ++ D)).drop (mid - upper + 1).toNat = S2 ++ D :=
    List.drop_left' hS1
  have e1 : (mid + 1).toNat = upper.toNat + (mid - upper + 1).toNat := by omega
  have h5 : (X ++ (S1 ++ (S2 ++ D))).drop (mid + 1).toNat = S2 ++ D := by
    rw [e1, ← List.drop_drop, h2, h4]
  have h6 : ((X ++ (S1 ++ (S2 ++ D))).drop (mid + 1).toNat).take (lower - mid).toNat
      = S2 := by
    rw [h5]
    exact List.take_left' hS2
  have e2 : (lower + 1).toNat = (mid + 1).toNat + (lower - mid).toNat := by omega
  have h7 : (X ++ (S1 ++ (S2 ++ D))).drop (lower + 1).toNat = D := by
    rw [e2, ← List.drop_drop, h5, List.drop_left' hS2]
  rw [h2, List.take_left' hS1, h1, h6, h7]

/-! ### Bridge from the in-place sort to the segment sort -/

/-- `MergeSort` rewrites exactly the segment `originVec[upper..lower]` with
its `msortSeg` sort and leaves the rest of the vector in place (strong
induction on the segment length). -/
theorem MergeSort_eq_msortSeg (comp : Str → Str → Bool) :
    ∀ (n : Nat) (v : List Str) (upper lower : Int),
      (lower - upper).toNat = n → 0 ≤ upper → upper ≤ lower →
      lower < (v.length : Int) →
      MergeSort v upper lower comp =
        v.take upper.toNat ++
          msortSeg comp ((v.drop upper.toNat).take (lower - upper + 1).toNat) ++
          v.drop (lower + 1).toNat := by
  intro n
  induction n using Nat.strong_induction_on with
  | _ n ih =>
    intro v upper lower hn h0 hul hlen
    by_cases hlt : upper < lower
    · rw [MergeSort, if_pos hlt]
      dsimp only
      set m := upper + (lower - upper) / 2 with hm
      have hum : upper ≤ m := by omega
      have hml : m < lower := by omega
      have hd1 : (m - upper).toNat < n := by omega
      have hd2 : (lower - (m + 1)).toNat < n := by omega
      have hA := ih _ hd1 v upper m rfl h0 hum (by omega)
      set X := v.take upper.toNat with hXdef
      set S1 := msortSeg comp ((v.drop upper.toNat).take (m - upper + 1).toNat)
        with hS1def
      set Z := v.drop (m + 1).toNat with hZdef
      have hXlen : X.length = upper.toNat := by
        rw [hXdef, List.length_take]
        omega
      have hS1len : S1.length = (m - upper + 1).toNat := by
        rw [hS1def, msortSeg_length, List.length_take, List.length_drop]
        omega
      have hXS1len : (X ++ S1).length = (m + 1).toNat := by
        rw [List.length_append, hXlen, hS1len]
        omega
      have hAlen : (MergeSort v upper m comp).length = v.length := by
        rw [hA]
        simp only [List.length_append, hXlen, hS1len, hZdef, List.length_drop]
        omega
      have hB := ih _ hd2 (MergeSort v upper m comp) (m + 1) lower rfl (by omega)
        (by omega) (by rw [hAlen]; omega)
      have e3 : (lower - (m + 1) + 1).toNat = (lower - m).toNat := by omega
      rw [e3] at hB
      rw [hB, hA]
      have ht1 : ((X ++ S1) ++ Z).take (m + 1).toNat = X ++ S1 :=
        List.take_left' hXS1len
      have ht2 : ((X ++ S1) ++ Z).drop (m + 1).toNat = Z :=
        List.drop_left' hXS1len
      have e4 : (lower + 1).toNat = (m + 1).toNat + (lower - m).toNat := by omega
      have ht3 : ((X ++ S1) ++ Z).drop (lower + 1).toNat = v.drop (lower + 1).toNat := by
        rw [e4, ← List.drop_drop, ht2, hZdef, List.drop_drop]
      rw [ht1, ht2, ht3]
      have hS2len : (msortSeg comp (Z.take (lower - m).toNat)).length
          = (lower - m).toNat := by
        rw [msortSeg_length, List.length_take, hZdef, List.length_drop]
        omega
      rw [merge_eval comp X S1 (msortSeg comp (Z.take (lower - m).toNat))
        (v.drop (lower + 1).toNat) upper m lower h0 hum hml hXlen hS1len hS2len]
      have hseg : msortSeg comp ((v.drop upper.toNat).take (lower - upper + 1).toNat)
          = mergeRun comp S1 (msortSeg comp (Z.take (lower - m).toNat)) := by
        rw [msortSeg]
        have hsl : ((v.drop upper.toNat).take (lower - upper + 1).toNat).length
            = (lower - upper + 1).toNat := by
          rw [List.length_take, List.length_drop]
          omega
        rw [if_neg (by rw [hsl]; omega)]
        have hh : (((v.drop upper.toNat).take (lower - upper + 1).toNat).length + 1) / 2
            = (m - upper + 1).toNat := by
          rw [hsl]
          omega
        rw [hh]
        have ht : ((v.drop upper.toNat).take (lower - upper + 1).toNat).take
            (m - upper + 1).toNat = (v.drop upper.toNat).take (m - upper + 1).toNat := by
          rw [List.take_take, min_eq_left (by omega)]
        have e1 : upper.toNat + (m - upper + 1).toNat = (m + 1).toNat := by omega
        have e2 : (lower - upper + 1).toNat - (m - upper + 1).toNat
            = (lower - m).toNat := by omega
        have hd : ((v.drop upper.toNat).take (lower - upper + 1).toNat).drop
            (m - upper + 1).toNat = Z.take (lower - m).toNat := by
          rw [List.drop_take, List.drop_drop, e1, e2, hZdef]
        rw [ht, hd, ← hS1def]
      rw [hseg]
    · have heq : lower = upper := le_antisymm (not_lt.1 hlt) hul
      subst heq
      rw [MergeSort, if_neg hlt]
      have h1nat : (lower - lower + 1).toNat = 1 := by omega
      have hup1 : (lower + 1).toNat = lower.toNat + 1 := by omega
      rw [h1nat, hup1]
      have hlen1 : ((v.drop lower.toNat).take 1).length ≤ 1 := by
        rw [List.length_take]
        omega
      rw [msortSeg, if_pos hlen1]
      have hBC : (v.drop lower.toNat).take 1 ++ v.drop (lower.toNat + 1) =
          v.drop lower.toNat := by
        rw [← List.drop_drop 1 lower.toNat v]
        exact List.take_append_drop 1 (v.drop lower.toNat)
      rw [List.append_assoc, hBC, List.take_append_drop]

/-- The wrapper sorts the whole list: it equals the segment sort of the full
list with the selected comparer. -/
theorem MergeSortWrapper_eq (L : List Str) (sortType : Int) :
    MergeSortWrapper L sortType = msortSeg (comparerFor sortType) L := by
  cases L with
  | nil =>
    rw [MergeSortWrapper, MergeSort, msortSeg]
    norm_num
  | cons x xs =>
    rw [MergeSortWrapper]
    have hlen : ((x :: xs).length : Int) - 1 < ((x :: xs).length : Int) := by omega
    have h0 : (0 : Int) ≤ 0 := le_refl 0
    have hul : (0 : Int) ≤ ((x :: xs).length : Int) - 1 := by
      simp only [List.length_cons]
      omega
    rw [MergeSort_eq_msortSeg (comparerFor sortType) ((((x :: xs).length : Int) - 1
      - 0).toNat) (x :: xs) 0 (((x :: xs).length : Int) - 1) rfl h0 hul hlen]
    have e1 : (((x :: xs).length : Int) - 1 - 0 + 1).toNat = (x :: xs).length := by
      omega
    have e2 : ((((x :: xs).length : Int) - 1) + 1).toNat = (x :: xs).length := by
      omega
    rw [e1, e2]
    simp

/-! ### Sortedness per policy -/

/-- Output of the segment sort with the ascending comparer: no later element
sorts strictly before an earlier one. -/
theorem msortSeg_sorted_asc (L : List Str) :
    (msortSeg AlphAscStrComp.IsFirstAboveSecond L).Pairwise
      (fun x y => AlphAscStrComp.IsFirstAboveSecond y x = false) :=
  msortSeg_pairwise _ _
    (fun x y z hxy hyz => alphAsc_not_trans x y z hxy hyz)
    (fun u l h => alphAsc_asymm u l h)
    (fun _ _ h => h) L

/-- Output of the segment sort with the descending comparer. -/
theorem msortSeg_sorted_desc (L : List Str) :
    (msortSeg AlphDescStrComp.IsFirstAboveSecond L).Pairwise
      (fun x y => AlphDescStrComp.IsFirstAboveSecond y x = false) :=
  msortSeg_pairwise _ _
    (fun x y z hxy hyz => by
      rw [alphDesc_eq_alphAsc_swap] at hxy hyz ⊢
      exact alphAsc_not_trans z y x hyz hxy)
    (fun u l h => by
      rw [alphDesc_eq_alphAsc_swap] at h ⊢
      exact alphAsc_asymm l u h)
    (fun _ _ h => h) L

/-- Output of the segment sort with the last-letter comparer: each element
reports `IsFirstAboveSecond` true of its successor (the comparer is
reflexive, so this is the non-strict form of sortedness it admits). -/
theorem msortSeg_sorted_lastLetter (L : List Str) :
    (msortSeg LastLetterAscStrComp.IsFirstAboveSecond L).Pairwise
      (fun x y => LastLetterAscStrComp.IsFirstAboveSecond x y = true) :=
  msortSeg_pairwise _ _
    (fun x y z hxy hyz => lastLetter_trans x y z hxy hyz)
    (fun _ _ h => h)
    (fun u l h => lastLetter_total u l h) L

/-- A selector other than `LastLetterAsc` dispatches to one of the two
alphabetical comparers. -/
theorem comparerFor_eq_asc (sortType : Int) (h2 : sortType ≠ ESortType.LastLetterAsc) :
    comparerFor sortType = AlphAscStrComp.IsFirstAboveSecond ∨
    comparerFor sortType = AlphDescStrComp.IsFirstAboveSecond := by
  unfold comparerFor
  by_cases h0 : sortType = ESortType.AlphAsc
  · rw [if_pos h0]
    exact Or.inl rfl
  · rw [if_neg h0]
    by_cases h1 : sortType = ESortType.AlphDesc
    · rw [if_pos h1]
      exact Or.inr rfl
    · rw [if_neg h1, if_neg h2]
      exact Or.inl rfl

/-- The `LastLetterAsc` selector dispatches to the last-letter comparer. -/
theorem comparerFor_lastLetter :
    comparerFor ESortType.LastLetterAsc = LastLetterAscStrComp.IsFirstAboveSecond := by
  unfold comparerFor
  rw [if_neg (by decide), if_neg (by decide), if_pos rfl]

/-- Every selector dispatches to one of the three comparers. -/
theorem comparerFor_cases (sortType : Int) :
    comparerFor sortType = AlphAscStrComp.IsFirstAboveSecond ∨
    comparerFor sortType = AlphDescStrComp.IsFirstAboveSecond ∨
    comparerFor sortType = LastLetterAscStrComp.IsFirstAboveSecond := by
  by_cases h2 : sortType = ESortType.LastLetterAsc
  · rw [h2, comparerFor_lastLetter]
    exact Or.inr (Or.inr rfl)
  · rcases comparerFor_eq_asc sortType h2 with h | h
    · exact Or.inl h
    · exact Or.inr (Or.inl h)

/-- Sorting an already sorted list returns it unchanged, for any comparer
deciding an antisymmetric total preorder. -/
theorem msortSeg_idem (comp : Str → Str → Bool) (le : Str → Str → Prop)
    (htrans : ∀ x y z, le x y → le y z → le x z)
    (h1 : ∀ u l : Str, comp u l = true → le u l)
    (h2 : ∀ u l : Str, comp u l = false → le l u)
    (hanti : ∀ x y : Str, le x y → le y x → x = y) (L : List Str) :
    msortSeg comp (msortSeg comp L) = msortSeg comp L := by
  haveI : IsAntisymm Str le := ⟨hanti⟩
  exact List.eq_of_perm_of_sorted (msortSeg_perm comp (msortSeg comp L))
    (msortSeg_pairwise comp le htrans h1 h2 (msortSeg comp L))
    (msortSeg_pairwise comp le htrans h1 h2 L)

/-! ### Small evaluation lemmas for the segment sort -/

/-- The segment sort leaves a singleton unchanged. -/
theorem msortSeg_singleton (comp : Str → Str → Bool) (x : Str) :
    msortSeg comp [x] = [x] := by
  rw [msortSeg]
  norm_num

/-- The segment sort of a pair is one merge of the two singletons. -/
theorem msortSeg_pair (comp : Str → Str → Bool) (x y : Str) :
    msortSeg comp [x, y] = mergeRun comp [x] [y] := by
  rw [msortSeg]
  norm_num [msortSeg_singleton]

/-! ### Claims about the sort -/

/-- Claim C1, counterexample: under the LastLetterAsc policy the claimed
adjacent condition `IsFirstAboveSecond(out[i+1], out[i]) = false` fails on the
duplicate input `["a", "a"]`: the output is `["a", "a]"` and the comparer
reports true on the equal pair. -/
theorem claim_C1_counterexample :
    MergeSortWrapper [("a".toList), ("a".toList)] ESortType.LastLetterAsc
        = [("a".toList), ("a".toList)] ∧
    ¬ List.Chain' (fun x y => LastLetterAscStrComp.IsFirstAboveSecond y x = false)
      (MergeSortWrapper [("a".toList), ("a".toList)] ESortType.LastLetterAsc) := by
  have he : MergeSortWrapper [("a".toList), ("a".toList)] ESortType.LastLetterAsc
      = [("a".toList), ("a".toList)] := by
    rw [MergeSortWrapper_eq, comparerFor_lastLetter, msortSeg_pair]
    simp [mergeRun, lastLetter_refl]
  refine ⟨he, fun hch => ?_⟩
  rw [he] at hch
  have h1 := (List.chain'_cons.1 hch).1
  have h2 := lastLetter_refl ("a".toList)
  rw [h1] at h2
  exact Bool.false_ne_true h2

/-- Claim C1 (amended): for every input list and selector, the wrapper
returns a multiset-equal permutation; for the two strict policies (and any
defaulted selector) the output satisfies the claimed adjacent condition
`IsFirstAboveSecond(out[i+1], out[i]) = false`; for LastLetterAsc, whose
comparer is reflexive, adjacent outputs satisfy the non-strict form
`IsFirstAboveSecond(out[i], out[i+1]) = true` instead. -/
theorem claim_C1_amended (L : List Str) (sortType : Int) :
    (MergeSortWrapper L sortType).Perm L ∧
    (sortType ≠ ESortType.LastLetterAsc →
      List.Chain' (fun x y => comparerFor sortType y x = false)
        (MergeSortWrapper L sortType)) ∧
    (sortType = ESortType.LastLetterAsc →
      List.Chain' (fun x y => comparerFor sortType x y = true)
        (MergeSortWrapper L sortType)) := by
  refine ⟨?_, ?_, ?_⟩
  · rw [MergeSortWrapper_eq]
    exact msortSeg_perm _ L
  · intro h2
    rcases comparerFor_eq_asc sortType h2 with h | h <;> rw [MergeSortWrapper_eq, h]
    · exact (msortSeg_sorted_asc L).chain'
    · exact (msortSeg_sorted_desc L).chain'
  · intro h2
    rw [MergeSortWrapper_eq, h2, comparerFor_lastLetter]
    exact (msortSeg_sorted_lastLetter L).chain'

/-- Witness for claim C1 at a concrete list and the AlphAsc selector. -/
theorem claim_C1_witness :
    (MergeSortWrapper [("b".toList), ("a".toList)] ESortType.AlphAsc).Perm
        [("b".toList), ("a".toList)] ∧
    List.Chain' (fun x y => comparerFor ESortType.AlphAsc y x = false)
      (MergeSortWrapper [("b".toList), ("a".toList)] ESortType.AlphAsc) :=
  ⟨(claim_C1_amended [("b".toList), ("a".toList)] ESortType.AlphAsc).1,
    (claim_C1_amended [("b".toList), ("a".toList)] ESortType.AlphAsc).2.1 (by decide)⟩

/-- Witness for the amended claim C2: the asymmetry conjunct applied at a
concrete pair. -/
theorem claim_C2_amended_witness :
    AlphAscStrComp.IsFirstAboveSecond ("b".toList) ("a".toList) = false :=
  claim_C2_amended.2.1 ("a".toList) ("b".toList) (by decide)

/-- Claim C5: sorting is idempotent for every input list and selector. -/
theorem claim_C5 (L : List Str) (sortType : Int) :
    MergeSortWrapper (MergeSortWrapper L sortType) sortType
      = MergeSortWrapper L sortType := by
  rw [MergeSortWrapper_eq, MergeSortWrapper_eq]
  rcases comparerFor_cases sortType with h | h | h <;> rw [h]
  · exact msortSeg_idem _ _ (fun x y z hxy hyz => alphAsc_not_trans x y z hxy hyz)
      (fun u l h' => alphAsc_asymm u l h') (fun _ _ h' => h')
      (fun x y hxy hyx => alphAsc_conn x y hyx hxy) L
  · refine msortSeg_idem _ (fun x y => AlphDescStrComp.IsFirstAboveSecond y x = false)
      ?_ ?_ (fun _ _ h' => h') ?_ L
    · intro x y z hxy hyz
      rw [alphDesc_eq_alphAsc_swap] at hxy hyz ⊢
      exact alphAsc_not_trans z y x hyz hxy
    · intro u l h'
      rw [alphDesc_eq_alphAsc_swap] at h' ⊢
      exact alphAsc_asymm l u h'
    · intro x y hxy hyx
      rw [alphDesc_eq_alphAsc_swap] at hxy hyx
      exact alphAsc_conn x y hxy hyx
  · exact msortSeg_idem _ (fun x y => LastLetterAscStrComp.IsFirstAboveSecond x y = true)
      (fun x y z hxy hyz => lastLetter_trans x y z hxy hyz)
      (fun _ _ h' => h') (fun u l h' => lastLetter_total u l h')
      (fun x y hxy hyx => lastLetter_antisymm x y hxy hyx) L

/-- Claim C9: the last-letter comparer decides "reversed string
lexicographically below or equal" — at the first difference from the end the
smaller character sorts first, and an exhausted (shorter) reverse walk
precedes — and the spec's example sorts as stated. -/
theorem claim_C9 :
    (∀ a b : Str, LastLetterAscStrComp.IsFirstAboveSecond a b = true ↔
      (List.Lex (· < ·) a.reverse b.reverse ∨ a.reverse = b.reverse)) ∧
    MergeSortWrapper [("cat".toList), ("bat".toList), ("ace".toList)]
        ESortType.LastLetterAsc
      = [("ace".toList), ("bat".toList), ("cat".toList)] := by
  refine ⟨lastLetter_iff, ?_⟩
  have hperm : (MergeSortWrapper [("cat".toList), ("bat".toList), ("ace".toList)]
      ESortType.LastLetterAsc).Perm
      [("ace".toList), ("bat".toList), ("cat".toList)] := by
    rw [MergeSortWrapper_eq]
    exact (msortSeg_perm _ _).trans (by decide)
  have hsorted1 : (MergeSortWrapper [("cat".toList), ("bat".toList), ("ace".toList)]
      ESortType.LastLetterAsc).Pairwise
      (fun x y => LastLetterAscStrComp.IsFirstAboveSecond x y = true) := by
    rw [MergeSortWrapper_eq, comparerFor_lastLetter]
    exact msortSeg_sorted_lastLetter _
  have hsorted2 : ([("ace".toList), ("bat".toList), ("cat".toList)] : List Str).Pairwise
      (fun x y => LastLetterAscStrComp.IsFirstAboveSecond x y = true) := by decide
  haveI : IsAntisymm Str (fun x y => LastLetterAscStrComp.IsFirstAboveSecond x y = true) :=
    ⟨fun x y hxy hyx => lastLetter_antisymm x y hxy hyx⟩
  exact List.eq_of_perm_of_sorted hperm hsorted1 hsorted2

/-! ### The frame property -/

/-- Lengths and out-of-segment entries of a prefix ++ middle ++ suffix
decomposition. -/
theorem frame_pieces (v M : List Str) (u' L1 : Nat) (hu : u' ≤ L1)
    (hL : L1 ≤ v.length) (hM : M.length = L1 - u') :
    ((v.take u' ++ M) ++ v.drop L1).length = v.length ∧
    ∀ i : Nat, (i < u' ∨ L1 ≤ i) →
      ((v.take u' ++ M) ++ v.drop L1)[i]? = v[i]? := by
  have hXlen : (v.take u').length = u' := by
    rw [List.length_take]
    omega
  have hXMlen : (v.take u' ++ M).length = L1 := by
    rw [List.length_append, hXlen]
    omega
  constructor
  · rw [List.length_append, hXMlen, List.length_drop]
    omega
  · intro i hi
    rcases hi with hi | hi
    · rw [List.getElem?_append_left (by rw [hXMlen]; omega),
        List.getElem?_append_left (by rw [hXlen]; omega)]
      exact List.getElem?_take_of_lt hi
    · rw [List.getElem?_append_right (by rw [hXMlen]; omega), hXMlen,
        List.getElem?_drop]
      have e : L1 + (i - L1) = i := by omega
      rw [e]

/-- Claim C10: for in-range indices, `MergeSort` (and each `merge` step)
preserves the vector length and leaves every entry below `upper` or above
`lower` unchanged. -/
theorem claim_C10 (v : List Str) (upper lower : Int) (comp : Str → Str → Bool)
    (h0 : 0 ≤ upper) (hul : upper ≤ lower) (hlen : lower < (v.length : Int)) :
    ((MergeSort v upper lower comp).length = v.length ∧
      ∀ i : Nat, (i < upper.toNat ∨ lower.toNat < i) →
        (MergeSort v upper lower comp)[i]? = v[i]?) ∧
    (∀ mid : Int, upper ≤ mid → mid < lower →
      (merge v upper mid lower comp).length = v.length ∧
      ∀ i : Nat, (i < upper.toNat ∨ lower.toNat < i) →
        (merge v upper mid lower comp)[i]? = v[i]?) := by
  constructor
  · have hb := MergeSort_eq_msortSeg comp (lower - upper).toNat v upper lower rfl
      h0 hul hlen
    have hM : (msortSeg comp ((v.drop upper.toNat).take (lower - upper + 1).toNat)).length
        = (lower + 1).toNat - upper.toNat := by
      rw [msortSeg_length, List.length_take, List.length_drop]
      omega
    have hfp := frame_pieces v
      (msortSeg comp ((v.drop upper.toNat).take (lower - upper + 1).toNat))
      upper.toNat (lower + 1).toNat (by omega) (by omega) hM
    rw [hb]
    refine ⟨hfp.1, fun i hi => hfp.2 i (by omega)⟩
  · intro mid hum hml
    have hmerge : merge v upper mid lower comp
        = (v.take upper.toNat ++
            mergeRun comp ((v.drop upper.toNat).take (mid - upper + 1).toNat)
              ((v.drop (mid + 1).toNat).take (lower - mid).toNat)) ++
            v.drop (lower + 1).toNat := rfl
    have hM2 : (mergeRun comp ((v.drop upper.toNat).take (mid - upper + 1).toNat)
        ((v.drop (mid + 1).toNat).take (lower - mid).toNat)).length
        = (lower + 1).toNat - upper.toNat := by
      rw [mergeRun_length, List.length_take, List.length_drop, List.length_take,
        List.length_drop]
      omega
    have hfp := frame_pieces v
      (mergeRun comp ((v.drop upper.toNat).take (mid - upper + 1).toNat)
        ((v.drop (mid + 1).toNat).take (lower - mid).toNat))
      upper.toNat (lower + 1).toNat (by omega) (by omega) hM2
    rw [hmerge]
    exact ⟨hfp.1, fun i hi => hfp.2 i (by omega)⟩

/-- Witness for claim C10 at a concrete vector and index range. -/
theorem claim_C10_witness :
    (MergeSort [("b".toList), ("a".toList), ("c".toList)] 1 2
        AlphAscStrComp.IsFirstAboveSecond).length = 3 := by
  have h := claim_C10 [("b".toList), ("a".toList), ("c".toList)] 1 2
    AlphAscStrComp.IsFirstAboveSecond (by decide) (by decide) (by decide)
  rw [h.1.1]
  decide

end TextFileSorter
